import Mathlib

/-!
Freestanding CRT primitives of the Doorstop proxy (`src/Doorstop/Proxy/crt.h`)

A shallow embedding of the memory and string primitives of `crt.h`.

* Memory is a finite sequence of units (`Mem`); a pointer is an index into it.
  A pointer to `char` indexes a memory of bytes, a pointer to `wchar_t` a memory
  of wide units, so `p++` is `p + 1` in both cases.
* Every access is checked: a read or write outside the memory has no defined
  result and the operation yields `none`.
* `while (n--)` tests the counter against zero and then decrements it, so the
  loops recurse on the bit pattern of the counter; an `int` counter enters the
  loop with its 32-bit twos-complement pattern (`intBits`).
-/

namespace Crt

/-! ## Definitions -/

/-- Memory: a finite sequence of units, addressed from `0`. -/
abbrev Mem := List Nat

/-- Read of the unit at address `p` (`*p` as an rvalue). -/
def load (mem : Mem) (p : Nat) : Option Nat :=
  mem[p]?

/-- Write of `v` to the unit at address `p` (`*p = v`). -/
def store (mem : Mem) (p : Nat) (v : Nat) : Option Mem :=
  if p < mem.length then some (mem.set p v) else none

/-- Bit pattern of a 32-bit `int` (twos-complement): the number of decrements that
take the counter to zero, wrapping around for a negative value. -/
def intBits (n : Int) : Nat :=
  (n % 4294967296).toNat

/-- Loop of `wmemcpy`: `while (n--) *d++ = *s++;`. -/
def wmemcpyLoop : Nat → Nat → Nat → Mem → Option Mem
  | 0, _, _, mem => some mem
  | n + 1, d, s, mem => do
    let v ← load mem s
    let mem1 ← store mem d v
    wmemcpyLoop n (d + 1) (s + 1) mem1

/-- Source function `wmemcpy(dst, src, n)`: the memory afterwards and the returned pointer. -/
def wmemcpy (mem : Mem) (dst src n : Nat) : Option (Mem × Nat) := do
  let mem1 ← wmemcpyLoop n dst src mem
  pure (mem1, dst)

/-- Loop of `wmemset`: `while (n--) *(d++) = c;`. -/
def wmemsetLoop (c : Nat) : Nat → Nat → Mem → Option Mem
  | 0, _, mem => some mem
  | n + 1, d, mem => do
    let mem1 ← store mem d c
    wmemsetLoop c n (d + 1) mem1

/-- Source function `wmemset(dst, c, n)`: the memory afterwards and the returned pointer. -/
def wmemset (mem : Mem) (dst c n : Nat) : Option (Mem × Nat) := do
  let mem1 ← wmemsetLoop c n dst mem
  pure (mem1, dst)

/-- Loop of `memset`: `while (n--) *d = c;` (the pointer `d` is not advanced). -/
def memsetLoop (c : Nat) : Nat → Nat → Mem → Option Mem
  | 0, _, mem => some mem
  | n + 1, d, mem => do
    let mem1 ← store mem d c
    memsetLoop c n d mem1

/-- Source function `memset(dst, c, n)` with `int n`: the memory afterwards and the returned pointer. -/
def memset (mem : Mem) (dst c : Nat) (n : Int) : Option (Mem × Nat) := do
  let mem1 ← memsetLoop c (intBits n) dst mem
  pure (mem1, dst)

/-- Loop of `memcpy`: `while (n--) *d++ = *s++;`. -/
def memcpyLoop : Nat → Nat → Nat → Mem → Option Mem
  | 0, _, _, mem => some mem
  | n + 1, d, s, mem => do
    let v ← load mem s
    let mem1 ← store mem d v
    memcpyLoop n (d + 1) (s + 1) mem1

/-- Source function `memcpy(dst, src, n)` with `int n`: the memory afterwards and the returned pointer. -/
def memcpy (mem : Mem) (dst src : Nat) (n : Int) : Option (Mem × Nat) := do
  let mem1 ← memcpyLoop (intBits n) dst src mem
  pure (mem1, dst)

/-- Loop of `wcslen`: `while (*str++) result++;`, on the units from `str` to the
end of the memory. Running off the end of the memory is an invalid read. -/
def wcslenLoop : List Nat → Nat → Option Nat
  | [], _ => none
  | c :: rest, result => if c ≠ 0 then wcslenLoop rest (result + 1) else some result

/-- Source function `wcslen(str)`. -/
def wcslen (mem : Mem) (str : Nat) : Option Nat :=
  wcslenLoop (mem.drop str) 0

/-- Loop of `strlen`: `while (*str++) result++;`, on the units from `str` to the
end of the memory. Running off the end of the memory is an invalid read. -/
def strlenLoop : List Nat → Nat → Option Nat
  | [], _ => none
  | c :: rest, result => if c ≠ 0 then strlenLoop rest (result + 1) else some result

/-- Source function `strlen(str)`. -/
def strlen (mem : Mem) (str : Nat) : Option Nat :=
  strlenLoop (mem.drop str) 0

/-! ### Heap adapter -/

/-- Modelled from the spec: the "raise on failure" flag of the heap service
(`HEAP_GENERATE_EXCEPTIONS`); the constant comes from the platform headers, which are
not part of the repository. -/
def HEAP_GENERATE_EXCEPTIONS : Nat := 0x00000004

/-- Modelled from the spec: the "zero-fill" flag of the heap service
(`HEAP_ZERO_MEMORY`); the constant comes from the platform headers, which are not part
of the repository. -/
def HEAP_ZERO_MEMORY : Nat := 0x00000008

/-- Result of an allocation request: a returned pointer (`0` is the null pointer)
with the heap state after the call, or a raised exception. -/
inductive AllocResult (σ : Type) where
  | returned (ptr : Nat) (heap : σ)
  | raised

/-- Modelled from the spec: the heap service of the operating environment, which is
not part of the repository. `HeapAlloc heap hHeap dwFlags dwBytes` is the service
`Allocate(handle, flags, size) -> pointer | raises`; `canSatisfy heap hHeap dwBytes`
tells whether the request can be satisfied in state `heap`; `memory` is the memory the
program sees in a heap state. -/
structure HeapService (σ : Type) where
  memory : σ → Mem
  canSatisfy : σ → Nat → Nat → Bool
  HeapAlloc : σ → Nat → Nat → Nat → AllocResult σ

/-- Modelled from the spec: the contract of the heap service, "flags select raise on
failure vs zero-fill behavior". A request that cannot be satisfied raises when the
raise-on-failure flag is passed and otherwise returns null leaving the heap as it
was; a request that can be satisfied returns a non-null block of at least the
requested size, zero-filled when the zero-fill flag is passed. -/
structure HeapService.Honours {σ : Type} (svc : HeapService σ) : Prop where
  raise_on_failure : ∀ heap hHeap dwFlags dwBytes,
    svc.canSatisfy heap hHeap dwBytes = false → dwFlags &&& HEAP_GENERATE_EXCEPTIONS ≠ 0 →
    svc.HeapAlloc heap hHeap dwFlags dwBytes = AllocResult.raised
  null_on_failure : ∀ heap hHeap dwFlags dwBytes,
    svc.canSatisfy heap hHeap dwBytes = false → dwFlags &&& HEAP_GENERATE_EXCEPTIONS = 0 →
    svc.HeapAlloc heap hHeap dwFlags dwBytes = AllocResult.returned 0 heap
  block_on_success : ∀ heap hHeap dwFlags dwBytes,
    svc.canSatisfy heap hHeap dwBytes = true →
    ∃ ptr heap1, svc.HeapAlloc heap hHeap dwFlags dwBytes = AllocResult.returned ptr heap1 ∧
      ptr ≠ 0 ∧ ptr + dwBytes ≤ (svc.memory heap1).length ∧
      (dwFlags &&& HEAP_ZERO_MEMORY ≠ 0 →
        ∀ i, i < dwBytes → (svc.memory heap1)[ptr + i]? = some 0)

/-- Macro `memalloc(size)`: `HeapAlloc(hHeap, HEAP_GENERATE_EXCEPTIONS, size)`. -/
def memalloc {σ : Type} (svc : HeapService σ) (heap : σ) (hHeap size : Nat) : AllocResult σ :=
  svc.HeapAlloc heap hHeap HEAP_GENERATE_EXCEPTIONS size

/-- Macro `memcalloc(size)`: `HeapAlloc(hHeap, HEAP_ZERO_MEMORY, size)`. -/
def memcalloc {σ : Type} (svc : HeapService σ) (heap : σ) (hHeap size : Nat) : AllocResult σ :=
  svc.HeapAlloc heap hHeap HEAP_ZERO_MEMORY size

/-- State of a bump heap: the memory and the first address not handed out yet. -/
structure BumpHeap where
  mem : Mem
  top : Nat

/-- Memory with the `size` units from `p` set to zero. -/
def zeroRange (mem : Mem) (p size : Nat) : Mem :=
  mem.take p ++ List.replicate size 0 ++ mem.drop (p + size)

/-- Modelled from the spec: a concrete heap service, a bump allocator over a finite
memory, standing for the operating-system heap that is not part of the repository.
It hands out the block at `top` while the request fits below the end of the memory. -/
def bumpService : HeapService BumpHeap where
  memory := fun heap => heap.mem
  canSatisfy := fun heap _ dwBytes =>
    decide (heap.top ≠ 0 ∧ heap.top + dwBytes ≤ heap.mem.length)
  HeapAlloc := fun heap _ dwFlags dwBytes =>
    if heap.top ≠ 0 ∧ heap.top + dwBytes ≤ heap.mem.length then
      AllocResult.returned heap.top
        { mem := if dwFlags &&& HEAP_ZERO_MEMORY ≠ 0
            then zeroRange heap.mem heap.top dwBytes else heap.mem,
          top := heap.top + dwBytes }
    else if dwFlags &&& HEAP_GENERATE_EXCEPTIONS ≠ 0 then AllocResult.raised
    else AllocResult.returned 0 heap

/-! ### Array length helper -/

/-- Size in bytes (`sizeof`) of a fixed-size array whose elements take `elemSize` bytes each: the
element count times the element size. -/
def sizeofArray (elemSize : Nat) (arr : List Nat) : Nat :=
  arr.length * elemSize

/-- Macro `STR_LEN(str)`: `(sizeof(str) / sizeof(str[0]))`, where `sizeof(str[0])` is
`elemSize`. -/
def STR_LEN (elemSize : Nat) (str : List Nat) : Nat :=
  sizeofArray elemSize str / elemSize

/-! ### Diagnostic break -/

/-- State of the process as seen by the diagnostic break: whether a debugger is
attached, and how many breakpoint traps have been taken so far. -/
structure ProcState where
  debuggerAttached : Bool
  traps : Nat
deriving DecidableEq

/-- Modelled from the spec: the query `IsDebuggerAttached() -> boolean` of the
operating environment (`IsDebuggerPresent`), which is not part of the repository. It
reads the flag and changes nothing. -/
def IsDebuggerPresent (st : ProcState) : Bool :=
  st.debuggerAttached

/-- Modelled from the spec: the breakpoint trap (`__debugbreak`), a compiler intrinsic
that is not part of the repository. It takes one trap. -/
def __debugbreak (st : ProcState) : ProcState :=
  { st with traps := st.traps + 1 }

/-- Macro `DEBUG_BREAK`: `{ if (IsDebuggerPresent()) { __debugbreak(); } }`. -/
def DEBUG_BREAK (st : ProcState) : ProcState :=
  if IsDebuggerPresent st then __debugbreak st else st

/-! ### Overlap-safe move -/

/-- Overlap-safe move of `n` units from `src` to `dst`, written from the words of the
specification rather than from the code: the `n` units that `src` holds before the
call are taken first and then put at `dst`; everything else is kept. -/
def moveSpec (mem : Mem) (dst src n : Nat) : Option (Mem × Nat) :=
  if dst + n ≤ mem.length ∧ src + n ≤ mem.length then
    some (mem.take dst ++ ((mem.drop src).take n ++ mem.drop (dst + n)), dst)
  else none

/-! ## Theorems -/

/-! ### Single accesses -/

theorem store_eq_some {mem : Mem} {p : Nat} (v : Nat) (h : p < mem.length) :
    store mem p v = some (mem.set p v) := by
  simp [store, h]

theorem load_eq_some {mem : Mem} {p : Nat} (h : p < mem.length) :
    load mem p = some (mem.get ⟨p, h⟩) := by
  simp [load, List.getElem?_eq_getElem h]

theorem intBits_of_int_range {n : Int} (h0 : 0 ≤ n) (h1 : n < 2147483648) :
    intBits n = n.toNat := by
  unfold intBits
  rw [Int.emod_eq_of_lt h0 (by omega)]

/-! ### The fill loops -/

theorem wmemsetLoop_spec (c : Nat) :
    ∀ (n d : Nat) (mem : Mem), d + n ≤ mem.length →
      ∃ mem1, wmemsetLoop c n d mem = some mem1 ∧ mem1.length = mem.length ∧
        (∀ i, i < n → mem1[d + i]? = some c) ∧
        (∀ p, p < d ∨ d + n ≤ p → mem1[p]? = mem[p]?) := by
  intro n
  induction n with
  | zero =>
    intro d mem _
    exact ⟨mem, rfl, rfl, fun i hi => absurd hi (Nat.not_lt_zero i), fun _ _ => rfl⟩
  | succ k ih =>
    intro d mem hb
    have hd : d < mem.length := by omega
    obtain ⟨mem1, hrun, hlen, hfill, hframe⟩ :=
      ih (d + 1) (mem.set d c) (by simp only [List.length_set]; omega)
    refine ⟨mem1, ?_, ?_, ?_, ?_⟩
    · simp [wmemsetLoop, store_eq_some c hd, hrun]
    · simpa using hlen
    · intro i hi
      cases i with
      | zero =>
        rw [Nat.add_zero, hframe d (Or.inl (Nat.lt_succ_self d))]
        simp [List.getElem?_set, hd]
      | succ j =>
        have := hfill j (by omega)
        rwa [show d + (j + 1) = d + 1 + j by omega]
    · intro p hp
      rw [hframe p (by omega)]
      have hne : d ≠ p := by omega
      simp [List.getElem?_set, hne]

theorem memsetLoop_spec (c : Nat) :
    ∀ (n d : Nat) (mem : Mem), d < mem.length →
      memsetLoop c (n + 1) d mem = some (mem.set d c) := by
  intro n
  induction n with
  | zero =>
    intro d mem hd
    simp [memsetLoop, store_eq_some c hd]
  | succ k ih =>
    intro d mem hd
    have h1 : d < (mem.set d c).length := by simpa using hd
    have := ih d (mem.set d c) h1
    rw [memsetLoop]
    simp [store_eq_some c hd, this]

/-! ### The copy loops -/

theorem memcpyLoop_spec :
    ∀ (n d s : Nat) (mem : Mem), d + n ≤ mem.length → s + n ≤ mem.length →
      (d ≤ s ∨ s + n ≤ d) →
      ∃ mem1, memcpyLoop n d s mem = some mem1 ∧ mem1.length = mem.length ∧
        (∀ i, i < n → mem1[d + i]? = mem[s + i]?) ∧
        (∀ p, p < d ∨ d + n ≤ p → mem1[p]? = mem[p]?) := by
  intro n
  induction n with
  | zero =>
    intro d s mem _ _ _
    exact ⟨mem, rfl, rfl, fun i hi => absurd hi (Nat.not_lt_zero i), fun _ _ => rfl⟩
  | succ k ih =>
    intro d s mem hd hs hsep
    have hd0 : d < mem.length := by omega
    have hs0 : s < mem.length := by omega
    obtain ⟨mem1, hrun, hlen, hcopy, hframe⟩ :=
      ih (d + 1) (s + 1) (mem.set d (mem.get ⟨s, hs0⟩))
        (by simp only [List.length_set]; omega) (by simp only [List.length_set]; omega)
        (by omega)
    refine ⟨mem1, ?_, ?_, ?_, ?_⟩
    · simp only [memcpyLoop, load_eq_some hs0, store_eq_some _ hd0, Option.bind_eq_bind,
        Option.some_bind, hrun]
    · simpa using hlen
    · intro i hi
      cases i with
      | zero =>
        rw [Nat.add_zero, Nat.add_zero, hframe d (Or.inl (Nat.lt_succ_self d))]
        simp [List.getElem?_set, hd0, List.getElem?_eq_getElem hs0]
      | succ j =>
        have h := hcopy j (by omega)
        rw [show d + (j + 1) = d + 1 + j by omega, show s + (j + 1) = s + 1 + j by omega, h]
        have hne : d ≠ s + 1 + j := by omega
        simp [List.getElem?_set, hne]
    · intro p hp
      rw [hframe p (by omega)]
      have hne : d ≠ p := by omega
      simp [List.getElem?_set, hne]

theorem wmemcpyLoop_eq_memcpyLoop :
    ∀ (n d s : Nat) (mem : Mem), wmemcpyLoop n d s mem = memcpyLoop n d s mem := by
  intro n
  induction n with
  | zero => intro d s mem; rfl
  | succ k ih =>
    intro d s mem
    simp only [wmemcpyLoop, memcpyLoop, ih]

/-! ### The length loops -/

theorem strlenLoop_spec :
    ∀ (k : Nat) (l : List Nat) (r : Nat), l[k]? = some 0 →
      (∀ i, i < k → ∃ v, l[i]? = some v ∧ v ≠ 0) → strlenLoop l r = some (r + k) := by
  intro k
  induction k with
  | zero =>
    intro l r hz _
    cases l with
    | nil => simp at hz
    | cons c rest =>
      simp only [List.getElem?_cons_zero, Option.some.injEq] at hz
      simp [strlenLoop, hz]
  | succ j ih =>
    intro l r hz hnz
    cases l with
    | nil => simp at hz
    | cons c rest =>
      obtain ⟨v, hv, hv0⟩ := hnz 0 (Nat.succ_pos j)
      simp only [List.getElem?_cons_zero, Option.some.injEq] at hv
      subst hv
      have hrest := ih rest (r + 1) (by simpa using hz) (fun i hi => by
        have := hnz (i + 1) (by omega)
        simpa using this)
      simp only [strlenLoop, hv0, ne_eq, not_false_eq_true, if_true, hrest]
      congr 1
      omega

theorem wcslenLoop_eq_strlenLoop :
    ∀ (l : List Nat) (r : Nat), wcslenLoop l r = strlenLoop l r := by
  intro l
  induction l with
  | nil => intro r; rfl
  | cons c rest ih =>
    intro r
    simp only [wcslenLoop, strlenLoop, ih]

/-! ### Fill -/

/-- C1 (evaluation of the code): `memset(dst, 0xAB, 4)` on a 4-byte block holding
`{0x11,0x22,0x33,0x44}` leaves `{0xAB,0x22,0x33,0x44}`: only the first byte is set,
the bytes at offsets 1, 2 and 3 keep their old values. -/
theorem memset_four_bytes_sets_first_only :
    memset [0x11, 0x22, 0x33, 0x44] 0 0xAB 4 = some ([0xAB, 0x22, 0x33, 0x44], 0) := by
  decide

/-- C2: for every `n`, wide value `c` and buffer of at least `n` wide units at `dst`,
`wmemset(dst, c, n)` completes, returns `dst`, and afterwards each of the first `n`
wide units of `dst` equals `c`. -/
theorem wmemset_fills (mem : Mem) (dst c n : Nat) (hb : dst + n ≤ mem.length) :
    ∃ mem1, wmemset mem dst c n = some (mem1, dst) ∧
      ∀ i, i < n → mem1[dst + i]? = some c := by
  obtain ⟨mem1, hrun, _, hfill, _⟩ := wmemsetLoop_spec c n dst mem hb
  exact ⟨mem1, by simp [wmemset, hrun], hfill⟩

theorem wmemset_fills_witness :
    1 + 2 ≤ [5, 6, 7, 8].length ∧
      ∃ mem1, wmemset [5, 6, 7, 8] 1 9 2 = some (mem1, 1) ∧
        ∀ i, i < 2 → mem1[1 + i]? = some 9 :=
  ⟨by decide, wmemset_fills [5, 6, 7, 8] 1 9 2 (by decide)⟩

/-- C7: for every count `n >= 0` (an `int`) and every wide count `k`, on a buffer of
at least that many units at `dst`, `memset(dst, c, n)` and `wmemset(dst, c, k)`
complete and leave every unit outside the first `n` (resp. `k`) units of `dst`
unchanged; with a count of `0` the whole memory is unchanged. -/
theorem fill_frame (mem : Mem) (dst c : Nat) (n : Int) (k : Nat)
    (h0 : 0 ≤ n) (h1 : n < 2147483648)
    (hb : dst + n.toNat ≤ mem.length) (hk : dst + k ≤ mem.length) :
    (∃ mem1, memset mem dst c n = some (mem1, dst) ∧
      (∀ p, p < dst ∨ dst + n.toNat ≤ p → mem1[p]? = mem[p]?) ∧
      (n = 0 → mem1 = mem)) ∧
    (∃ mem1, wmemset mem dst c k = some (mem1, dst) ∧
      (∀ p, p < dst ∨ dst + k ≤ p → mem1[p]? = mem[p]?) ∧
      (k = 0 → mem1 = mem)) := by
  constructor
  · rw [memset, intBits_of_int_range h0 h1]
    cases hn : n.toNat with
    | zero =>
      exact ⟨mem, by simp [memsetLoop], fun _ _ => rfl, fun _ => rfl⟩
    | succ j =>
      have hd : dst < mem.length := by omega
      refine ⟨mem.set dst c, by simp [memsetLoop_spec c j dst mem hd], ?_, ?_⟩
      · intro p hp
        have hne : dst ≠ p := by omega
        simp [List.getElem?_set, hne]
      · intro hz
        rw [hz] at hn
        simp at hn
  · obtain ⟨mem1, hrun, _, _, hframe⟩ := wmemsetLoop_spec c k dst mem hk
    refine ⟨mem1, by simp [wmemset, hrun], hframe, ?_⟩
    intro hz
    subst hz
    simp only [wmemsetLoop, Option.some.injEq] at hrun
    exact hrun.symm

theorem fill_frame_witness :
    (∃ mem1, memset [1, 2, 3, 4, 5] 1 9 3 = some (mem1, 1) ∧
      (∀ p, p < 1 ∨ 1 + (3 : Int).toNat ≤ p → mem1[p]? = [1, 2, 3, 4, 5][p]?) ∧
      ((3 : Int) = 0 → mem1 = [1, 2, 3, 4, 5])) ∧
    (∃ mem1, wmemset [1, 2, 3, 4, 5] 1 9 2 = some (mem1, 1) ∧
      (∀ p, p < 1 ∨ 1 + 2 ≤ p → mem1[p]? = [1, 2, 3, 4, 5][p]?) ∧
      (2 = 0 → mem1 = [1, 2, 3, 4, 5])) :=
  fill_frame [1, 2, 3, 4, 5] 1 9 3 2 (by decide) (by decide) (by decide) (by decide)

/-! ### Copy -/

/-- C3: for every count `n >= 0` (an `int`) and every pair of non-overlapping regions
of at least `n` bytes, `memcpy(dst, src, n)` completes, returns `dst`, and afterwards
the first `n` bytes of `dst` equal the first `n` bytes `src` held before the call. -/
theorem bytecopy_disjoint (mem : Mem) (dst src : Nat) (n : Int)
    (h0 : 0 ≤ n) (h1 : n < 2147483648)
    (hd : dst + n.toNat ≤ mem.length) (hs : src + n.toNat ≤ mem.length)
    (hsep : dst + n.toNat ≤ src ∨ src + n.toNat ≤ dst) :
    ∃ mem1, memcpy mem dst src n = some (mem1, dst) ∧
      ∀ i, i < n.toNat → mem1[dst + i]? = mem[src + i]? := by
  obtain ⟨mem1, hrun, _, hcopy, _⟩ :=
    memcpyLoop_spec n.toNat dst src mem hd hs (by omega)
  exact ⟨mem1, by simp [memcpy, intBits_of_int_range h0 h1, hrun], hcopy⟩

theorem bytecopy_disjoint_witness :
    ∃ mem1, memcpy [97, 98, 99, 100, 0, 0, 0, 0] 4 0 4 = some (mem1, 4) ∧
      ∀ i, i < (4 : Int).toNat → mem1[4 + i]? = [97, 98, 99, 100, 0, 0, 0, 0][0 + i]? :=
  bytecopy_disjoint [97, 98, 99, 100, 0, 0, 0, 0] 4 0 4 (by decide) (by decide) (by decide)
    (by decide) (by decide)

/-- C4: for every `n` and every pair of non-overlapping regions of at least `n` wide
units, `wmemcpy(dst, src, n)` completes, returns `dst`, and afterwards the first `n`
wide units of `dst` equal the first `n` wide units `src` held before the call. -/
theorem widecopy_disjoint (mem : Mem) (dst src n : Nat)
    (hd : dst + n ≤ mem.length) (hs : src + n ≤ mem.length)
    (hsep : dst + n ≤ src ∨ src + n ≤ dst) :
    ∃ mem1, wmemcpy mem dst src n = some (mem1, dst) ∧
      ∀ i, i < n → mem1[dst + i]? = mem[src + i]? := by
  obtain ⟨mem1, hrun, _, hcopy, _⟩ := memcpyLoop_spec n dst src mem hd hs (by omega)
  exact ⟨mem1, by simp [wmemcpy, wmemcpyLoop_eq_memcpyLoop, hrun], hcopy⟩

theorem widecopy_disjoint_witness :
    ∃ mem1, wmemcpy [0, 0, 0, 0x263A, 0x4E2D, 0x6587] 0 3 3 = some (mem1, 0) ∧
      ∀ i, i < 3 → mem1[0 + i]? = [0, 0, 0, 0x263A, 0x4E2D, 0x6587][3 + i]? :=
  widecopy_disjoint [0, 0, 0, 0x263A, 0x4E2D, 0x6587] 0 3 3 (by decide) (by decide) (by decide)

/-! ### Length -/

/-- C5: for every byte sequence at `str` and every `k` such that the unit at index `k`
is zero and the units at all indices below `k` are non-zero, `strlen(str)` returns
exactly `k`. -/
theorem strlen_eq_first_zero (mem : Mem) (str k : Nat)
    (hz : mem[str + k]? = some 0)
    (hnz : ∀ i, i < k → ∃ v, mem[str + i]? = some v ∧ v ≠ 0) :
    strlen mem str = some k := by
  have h := strlenLoop_spec k (mem.drop str) 0 (by simpa using hz)
    (fun i hi => by simpa using hnz i hi)
  simpa [strlen] using h

theorem strlen_eq_first_zero_witness :
    strlen [104, 101, 108, 108, 111, 0] 0 = some 5 :=
  strlen_eq_first_zero [104, 101, 108, 108, 111, 0] 0 5 (by decide)
    (fun i hi => by interval_cases i <;> simp)

/-- C6: for every wide-character sequence at `str` and every `k` such that the unit at
index `k` is zero and the units at all indices below `k` are non-zero, `wcslen(str)`
returns exactly `k`. -/
theorem wcslen_eq_first_zero (mem : Mem) (str k : Nat)
    (hz : mem[str + k]? = some 0)
    (hnz : ∀ i, i < k → ∃ v, mem[str + i]? = some v ∧ v ≠ 0) :
    wcslen mem str = some k := by
  have h := strlenLoop_spec k (mem.drop str) 0 (by simpa using hz)
    (fun i hi => by simpa using hnz i hi)
  simpa [wcslen, wcslenLoop_eq_strlenLoop] using h

theorem wcslen_eq_first_zero_witness :
    wcslen [7, 0x4E2D, 0x6587, 0, 9] 1 = some 2 :=
  wcslen_eq_first_zero [7, 0x4E2D, 0x6587, 0, 9] 1 2 (by decide)
    (fun i hi => by interval_cases i <;> simp)

/-! ### Heap adapter -/

theorem zeroRange_read (mem : Mem) (p size i : Nat) (hp : p + size ≤ mem.length)
    (hi : i < size) : (zeroRange mem p size)[p + i]? = some 0 := by
  have hlen : (mem.take p).length = p := by
    rw [List.length_take]; omega
  unfold zeroRange
  rw [List.append_assoc, List.getElem?_append_right (by omega), hlen,
    List.getElem?_append_left (by simp; omega)]
  simp [List.getElem?_replicate, hi]

theorem zeroRange_length (mem : Mem) (p size : Nat) (hp : p + size ≤ mem.length) :
    (zeroRange mem p size).length = mem.length := by
  simp [zeroRange]
  omega

theorem bumpService_honours : bumpService.Honours where
  raise_on_failure := by
    intro heap hHeap dwFlags dwBytes hfail hflag
    simp only [bumpService, decide_eq_false_iff_not] at hfail
    simp only [bumpService, if_neg hfail, if_pos hflag]
  null_on_failure := by
    intro heap hHeap dwFlags dwBytes hfail hflag
    simp only [bumpService, decide_eq_false_iff_not] at hfail
    simp only [bumpService, if_neg hfail, hflag, ne_eq, not_true_eq_false, if_false]
  block_on_success := by
    intro heap hHeap dwFlags dwBytes hok
    simp only [bumpService, decide_eq_true_eq] at hok
    refine ⟨heap.top,
      { mem := if dwFlags &&& HEAP_ZERO_MEMORY ≠ 0
          then zeroRange heap.mem heap.top dwBytes else heap.mem,
        top := heap.top + dwBytes },
      by simp only [bumpService, if_pos hok], hok.1, ?_, ?_⟩
    · by_cases hz : dwFlags &&& HEAP_ZERO_MEMORY ≠ 0
      · simp only [bumpService, if_pos hz, zeroRange_length _ _ _ hok.2]
        exact hok.2
      · simp only [bumpService, if_neg hz]
        exact hok.2
    · intro hz i hi
      simp only [bumpService, if_pos hz]
      exact zeroRange_read heap.mem heap.top dwBytes i hok.2 hi

theorem zeroFlag_excludes_raiseFlag : HEAP_ZERO_MEMORY &&& HEAP_GENERATE_EXCEPTIONS = 0 := by
  decide

theorem raiseFlag_set : HEAP_GENERATE_EXCEPTIONS &&& HEAP_GENERATE_EXCEPTIONS ≠ 0 := by
  decide

theorem zeroFlag_set : HEAP_ZERO_MEMORY &&& HEAP_ZERO_MEMORY ≠ 0 := by
  decide

/-- C8: over any heap service that honours the contract of the spec, when the service
cannot satisfy the request `memalloc(size)` raises and `memcalloc(size)` returns null
with the heap as it was; moreover `memalloc` never yields a null result and
`memcalloc` never raises, in any heap state. -/
theorem alloc_failure_asymmetry {σ : Type} (svc : HeapService σ) (hsvc : svc.Honours)
    (heap : σ) (hHeap size : Nat) (hfail : svc.canSatisfy heap hHeap size = false) :
    memalloc svc heap hHeap size = AllocResult.raised ∧
    memcalloc svc heap hHeap size = AllocResult.returned 0 heap ∧
    (∀ (st : σ) (h sz : Nat) (st1 : σ),
      memalloc svc st h sz ≠ AllocResult.returned 0 st1) ∧
    (∀ (st : σ) (h sz : Nat), memcalloc svc st h sz ≠ AllocResult.raised) := by
  refine ⟨hsvc.raise_on_failure heap hHeap _ size hfail raiseFlag_set,
    hsvc.null_on_failure heap hHeap _ size hfail zeroFlag_excludes_raiseFlag, ?_, ?_⟩
  · intro st h sz st1 hnull
    cases hc : svc.canSatisfy st h sz with
    | false =>
      have hr := hsvc.raise_on_failure st h _ sz hc raiseFlag_set
      rw [memalloc, hr] at hnull
      cases hnull
    | true =>
      obtain ⟨ptr, st2, hr, hne, _⟩ := hsvc.block_on_success st h HEAP_GENERATE_EXCEPTIONS sz hc
      rw [memalloc, hr] at hnull
      cases hnull
      exact hne rfl
  · intro st h sz hraised
    cases hc : svc.canSatisfy st h sz with
    | false =>
      have hr := hsvc.null_on_failure st h _ sz hc zeroFlag_excludes_raiseFlag
      rw [memcalloc, hr] at hraised
      cases hraised
    | true =>
      obtain ⟨ptr, st2, hr, _⟩ := hsvc.block_on_success st h HEAP_ZERO_MEMORY sz hc
      rw [memcalloc, hr] at hraised
      cases hraised

theorem alloc_failure_asymmetry_witness :
    bumpService.canSatisfy { mem := [0, 1, 2, 3], top := 1 } 7 100 = false ∧
    memalloc bumpService { mem := [0, 1, 2, 3], top := 1 } 7 100 = AllocResult.raised ∧
    memcalloc bumpService { mem := [0, 1, 2, 3], top := 1 } 7 100 =
      AllocResult.returned 0 { mem := [0, 1, 2, 3], top := 1 } :=
  ⟨by decide,
    (alloc_failure_asymmetry bumpService bumpService_honours
      { mem := [0, 1, 2, 3], top := 1 } 7 100 (by decide)).1,
    (alloc_failure_asymmetry bumpService bumpService_honours
      { mem := [0, 1, 2, 3], top := 1 } 7 100 (by decide)).2.1⟩

/-- C9: over any heap service that honours the contract of the spec (in particular the
zero-fill flag), when `memcalloc(n)` returns a non-null block the first `n` bytes of
that block are all zero; `memcalloc(n)` is the service call with the zero-fill flag
(whose bit is set) and the size `n` unchanged. -/
theorem memcalloc_zeroed {σ : Type} (svc : HeapService σ) (hsvc : svc.Honours)
    (heap : σ) (hHeap n ptr : Nat) (heap1 : σ)
    (hret : memcalloc svc heap hHeap n = AllocResult.returned ptr heap1) (hptr : ptr ≠ 0) :
    (∀ i, i < n → (svc.memory heap1)[ptr + i]? = some 0) ∧
    memcalloc svc heap hHeap n = svc.HeapAlloc heap hHeap HEAP_ZERO_MEMORY n ∧
    HEAP_ZERO_MEMORY &&& HEAP_ZERO_MEMORY ≠ 0 := by
  refine ⟨?_, rfl, zeroFlag_set⟩
  cases hc : svc.canSatisfy heap hHeap n with
  | false =>
    have hr := hsvc.null_on_failure heap hHeap _ n hc zeroFlag_excludes_raiseFlag
    rw [memcalloc, hr] at hret
    cases hret
    exact absurd rfl hptr
  | true =>
    obtain ⟨p, st, hr, _, _, hzero⟩ := hsvc.block_on_success heap hHeap HEAP_ZERO_MEMORY n hc
    rw [memcalloc, hr] at hret
    cases hret
    exact hzero zeroFlag_set

theorem memcalloc_zeroed_witness :
    memcalloc bumpService { mem := [9, 9, 9, 9, 9], top := 1 } 7 3 =
      AllocResult.returned 1 { mem := [9, 0, 0, 0, 9], top := 4 } ∧
    ∀ i, i < 3 → (bumpService.memory { mem := [9, 0, 0, 0, 9], top := 4 })[1 + i]? = some 0 :=
  ⟨rfl,
    (memcalloc_zeroed bumpService bumpService_honours { mem := [9, 9, 9, 9, 9], top := 1 }
      7 3 1 { mem := [9, 0, 0, 0, 9], top := 4 } rfl (by decide)).1⟩

/-! ### Array length helper -/

/-- C10: for every fixed-size array of `N` elements whose element size `s` is positive,
`STR_LEN(arr) = (N * s) / s = N`; the division is exact (remainder `0`). -/
theorem STR_LEN_eq_count (elemSize : Nat) (arr : List Nat) (hs : 0 < elemSize) :
    STR_LEN elemSize arr = arr.length ∧ sizeofArray elemSize arr % elemSize = 0 := by
  constructor
  · exact Nat.mul_div_cancel arr.length hs
  · exact Nat.mul_mod_left arr.length elemSize

theorem STR_LEN_eq_count_witness :
    0 < 2 ∧ STR_LEN 2 [104, 105, 0] = [104, 105, 0].length ∧
      sizeofArray 2 [104, 105, 0] % 2 = 0 :=
  ⟨by decide, STR_LEN_eq_count 2 [104, 105, 0] (by decide)⟩

/-! ### Further facts on the copy loop -/

theorem memcpyLoop_frame :
    ∀ (n d s : Nat) (mem : Mem), d + n ≤ mem.length → s + n ≤ mem.length →
      ∃ mem1, memcpyLoop n d s mem = some mem1 ∧ mem1.length = mem.length ∧
        (∀ p, p < d ∨ d + n ≤ p → mem1[p]? = mem[p]?) := by
  intro n
  induction n with
  | zero =>
    intro d s mem _ _
    exact ⟨mem, rfl, rfl, fun _ _ => rfl⟩
  | succ k ih =>
    intro d s mem hd hs
    have hd0 : d < mem.length := by omega
    have hs0 : s < mem.length := by omega
    obtain ⟨mem1, hrun, hlen, hframe⟩ :=
      ih (d + 1) (s + 1) (mem.set d (mem.get ⟨s, hs0⟩))
        (by simp only [List.length_set]; omega) (by simp only [List.length_set]; omega)
    refine ⟨mem1, ?_, ?_, ?_⟩
    · simp only [memcpyLoop, load_eq_some hs0, store_eq_some _ hd0, Option.bind_eq_bind,
        Option.some_bind, hrun]
    · simpa using hlen
    · intro p hp
      rw [hframe p (by omega)]
      have hne : d ≠ p := by omega
      simp [List.getElem?_set, hne]

theorem moved_read_below (mem : Mem) (dst src n p : Nat) (hd : dst + n ≤ mem.length)
    (hp : p < dst) :
    (mem.take dst ++ ((mem.drop src).take n ++ mem.drop (dst + n)))[p]? = mem[p]? := by
  rw [List.getElem?_append_left (by rw [List.length_take]; omega)]
  exact List.getElem?_take_of_lt hp

theorem moved_read_inside (mem : Mem) (dst src n i : Nat) (hd : dst + n ≤ mem.length)
    (hs : src + n ≤ mem.length) (hi : i < n) :
    (mem.take dst ++ ((mem.drop src).take n ++ mem.drop (dst + n)))[dst + i]? =
      mem[src + i]? := by
  have hlen : (mem.take dst).length = dst := by
    rw [List.length_take]; omega
  rw [List.getElem?_append_right (by omega), hlen, Nat.add_sub_cancel_left,
    List.getElem?_append_left (by rw [List.length_take, List.length_drop]; omega),
    List.getElem?_take_of_lt hi, List.getElem?_drop]

theorem moved_read_above (mem : Mem) (dst src n p : Nat) (hd : dst + n ≤ mem.length)
    (hs : src + n ≤ mem.length) (hp : dst + n ≤ p) :
    (mem.take dst ++ ((mem.drop src).take n ++ mem.drop (dst + n)))[p]? = mem[p]? := by
  have hlen : (mem.take dst).length = dst := by
    rw [List.length_take]; omega
  have hlen2 : ((mem.drop src).take n).length = n := by
    rw [List.length_take, List.length_drop]; omega
  rw [List.getElem?_append_right (by omega), hlen,
    List.getElem?_append_right (by omega), hlen2, List.getElem?_drop]
  congr 1
  omega

theorem memcpyLoop_eq_moved (mem : Mem) (dst src n : Nat) (hd : dst + n ≤ mem.length)
    (hs : src + n ≤ mem.length) (hdir : dst ≤ src) :
    memcpyLoop n dst src mem =
      some (mem.take dst ++ ((mem.drop src).take n ++ mem.drop (dst + n))) := by
  obtain ⟨mem1, hrun, _, hcopy, hframe⟩ :=
    memcpyLoop_spec n dst src mem hd hs (Or.inl hdir)
  rw [hrun]
  congr 1
  apply List.ext_getElem?
  intro p
  by_cases h1 : p < dst
  · rw [hframe p (Or.inl h1), moved_read_below mem dst src n p hd h1]
  · by_cases h2 : dst + n ≤ p
    · rw [hframe p (Or.inr h2), moved_read_above mem dst src n p hd hs h2]
    · obtain ⟨i, rfl⟩ : ∃ i, p = dst + i := ⟨p - dst, by omega⟩
      have hi : i < n := by omega
      rw [hcopy i hi, moved_read_inside mem dst src n i hd hs hi]

/-! ### Further facts on the length loop -/

theorem strlenLoop_take :
    ∀ (k : Nat) (l : List Nat) (len r : Nat), l[k]? = some 0 →
      (∀ i, i < k → ∃ v, l[i]? = some v ∧ v ≠ 0) →
      strlenLoop (l.take len) r = if k < len then some (r + k) else none := by
  intro k
  induction k with
  | zero =>
    intro l len r hz _
    cases l with
    | nil => simp at hz
    | cons c rest =>
      simp only [List.getElem?_cons_zero, Option.some.injEq] at hz
      cases len with
      | zero => simp [strlenLoop]
      | succ m => simp [strlenLoop, hz]
  | succ j ih =>
    intro l len r hz hnz
    cases l with
    | nil => simp at hz
    | cons c rest =>
      obtain ⟨v, hv, hv0⟩ := hnz 0 (Nat.succ_pos j)
      simp only [List.getElem?_cons_zero, Option.some.injEq] at hv
      subst hv
      cases len with
      | zero => simp [strlenLoop]
      | succ m =>
        have hrest := ih rest m (r + 1) (by simpa using hz) (fun i hi => by
          have := hnz (i + 1) (by omega)
          simpa using this)
        simp only [List.take_succ_cons, strlenLoop, hv0, ne_eq, not_false_eq_true, if_true,
          hrest, Nat.add_lt_add_iff_right]
        by_cases hjm : j < m
        · simp only [if_pos hjm, Option.some.injEq]
          omega
        · simp only [if_neg hjm]

theorem strlenLoop_append (post : List Nat) :
    ∀ (body : List Nat) (r : Nat), (∀ c, c ∈ body → c ≠ 0) →
      strlenLoop (body ++ 0 :: post) r = some (r + body.length) := by
  intro body
  induction body with
  | nil =>
    intro r _
    simp [strlenLoop]
  | cons c rest ih =>
    intro r hnz
    have hc : c ≠ 0 := hnz c (List.mem_cons_self c rest)
    have hrest := ih (r + 1) (fun x hx => hnz x (List.mem_cons_of_mem c hx))
    rw [List.cons_append, strlenLoop, if_pos hc, hrest, List.length_cons]
    congr 1
    omega

/-! ### Diagnostic break -/

theorem DEBUG_BREAK_of_absent (st : ProcState) (h : IsDebuggerPresent st = false) :
    DEBUG_BREAK st = st := by
  simp [DEBUG_BREAK, h]

theorem DEBUG_BREAK_iterate_of_absent (st : ProcState) (h : IsDebuggerPresent st = false) :
    ∀ k : Nat, Nat.iterate DEBUG_BREAK k st = st := by
  intro k
  induction k with
  | zero => rfl
  | succ j ih => rw [Function.iterate_succ_apply, DEBUG_BREAK_of_absent st h, ih]

/-- C11: over a state with a debugger-attached flag and a count of traps taken,
`DEBUG_BREAK` takes a breakpoint trap if and only if `IsDebuggerPresent()` is true;
when no debugger is present the state is unchanged, and executing `DEBUG_BREAK` any
number `k` of times leaves the state as executing it zero times does. -/
theorem debug_break_traps_iff_attached (st : ProcState) (k : Nat) :
    ((DEBUG_BREAK st).traps = st.traps + 1 ↔ IsDebuggerPresent st = true) ∧
    (IsDebuggerPresent st = false →
      DEBUG_BREAK st = st ∧ Nat.iterate DEBUG_BREAK k st = st) := by
  constructor
  · cases hp : IsDebuggerPresent st with
    | false => simp [DEBUG_BREAK, hp]
    | true => simp [DEBUG_BREAK, hp, __debugbreak]
  · intro h
    exact ⟨DEBUG_BREAK_of_absent st h, DEBUG_BREAK_iterate_of_absent st h k⟩

theorem debug_break_traps_iff_attached_witness :
    IsDebuggerPresent { debuggerAttached := false, traps := 2 } = false ∧
    DEBUG_BREAK { debuggerAttached := false, traps := 2 } =
      { debuggerAttached := false, traps := 2 } ∧
    Nat.iterate DEBUG_BREAK 5 { debuggerAttached := false, traps := 2 } =
      { debuggerAttached := false, traps := 2 } :=
  ⟨by decide,
    (debug_break_traps_iff_attached { debuggerAttached := false, traps := 2 } 5).2 (by decide)⟩

/-! ### Copy with overlapping regions -/

/-- C12: the forward copy is not overlap-safe. There are a memory, a source region and
a destination that starts inside the source region at a higher address, with a count
of at least 2, such that after `memcpy(dst, src, n)` the first `n` units of `dst`
differ from the first `n` units `src` held before the call; likewise for `wmemcpy`. -/
theorem forward_copy_overlap_differs :
    (∃ (mem : Mem) (dst src : Nat) (n : Int) (mem1 : Mem),
      src < dst ∧ dst < src + n.toNat ∧ 2 ≤ n ∧
      memcpy mem dst src n = some (mem1, dst) ∧
      (mem1.drop dst).take n.toNat ≠ (mem.drop src).take n.toNat) ∧
    (∃ (mem : Mem) (dst src n : Nat) (mem1 : Mem),
      src < dst ∧ dst < src + n ∧ 2 ≤ n ∧
      wmemcpy mem dst src n = some (mem1, dst) ∧
      (mem1.drop dst).take n ≠ (mem.drop src).take n) :=
  ⟨⟨[1, 2, 3, 0], 1, 0, 3, [1, 1, 1, 1], by decide, by decide, by decide, by decide,
      by decide⟩,
    ⟨[1, 2, 3, 0], 1, 0, 3, [1, 1, 1, 1], by decide, by decide, by decide, by decide,
      by decide⟩⟩

/-- C13: for every count and every `src`, `dst` in the same memory with `dst` at a
lower-or-equal address than `src` (the regions may overlap), `memcpy` and `wmemcpy`
complete, return `dst`, and leave the memory that the overlap-safe move `moveSpec`
leaves: afterwards the first `n` units of `dst` equal the first `n` units `src` held
before the call. -/
theorem copy_downwards_is_move (mem : Mem) (dst src : Nat) (n : Int) (k : Nat)
    (h0 : 0 ≤ n) (h1 : n < 2147483648) (hdir : dst ≤ src)
    (hs : src + n.toNat ≤ mem.length) (hsk : src + k ≤ mem.length) :
    (∃ mem1, memcpy mem dst src n = some (mem1, dst) ∧
      moveSpec mem dst src n.toNat = some (mem1, dst) ∧
      ∀ i, i < n.toNat → mem1[dst + i]? = mem[src + i]?) ∧
    (∃ mem1, wmemcpy mem dst src k = some (mem1, dst) ∧
      moveSpec mem dst src k = some (mem1, dst) ∧
      ∀ i, i < k → mem1[dst + i]? = mem[src + i]?) := by
  have hd : dst + n.toNat ≤ mem.length := by omega
  have hdk : dst + k ≤ mem.length := by omega
  constructor
  · refine ⟨mem.take dst ++ ((mem.drop src).take n.toNat ++ mem.drop (dst + n.toNat)),
      ?_, ?_, ?_⟩
    · simp only [memcpy, intBits_of_int_range h0 h1,
        memcpyLoop_eq_moved mem dst src n.toNat hd hs hdir, Option.bind_eq_bind,
        Option.some_bind]
      rfl
    · simp only [moveSpec, hd, hs, and_self, if_true]
    · intro i hi
      exact moved_read_inside mem dst src n.toNat i hd hs hi
  · refine ⟨mem.take dst ++ ((mem.drop src).take k ++ mem.drop (dst + k)), ?_, ?_, ?_⟩
    · simp only [wmemcpy, wmemcpyLoop_eq_memcpyLoop,
        memcpyLoop_eq_moved mem dst src k hdk hsk hdir, Option.bind_eq_bind,
        Option.some_bind]
      rfl
    · simp only [moveSpec, hdk, hsk, and_self, if_true]
    · intro i hi
      exact moved_read_inside mem dst src k i hdk hsk hi

theorem copy_downwards_is_move_witness :
    (∃ mem1, memcpy [1, 2, 3, 4, 5] 0 1 3 = some (mem1, 0) ∧
      moveSpec [1, 2, 3, 4, 5] 0 1 (3 : Int).toNat = some (mem1, 0) ∧
      ∀ i, i < (3 : Int).toNat → mem1[0 + i]? = [1, 2, 3, 4, 5][1 + i]?) ∧
    (∃ mem1, wmemcpy [1, 2, 3, 4, 5] 0 1 4 = some (mem1, 0) ∧
      moveSpec [1, 2, 3, 4, 5] 0 1 4 = some (mem1, 0) ∧
      ∀ i, i < 4 → mem1[0 + i]? = [1, 2, 3, 4, 5][1 + i]?) :=
  copy_downwards_is_move [1, 2, 3, 4, 5] 0 1 3 4 (by decide) (by decide) (by decide)
    (by decide) (by decide)

/-- C14: for every count, on in-bounds regions (overlapping or not), `memcpy` and
`wmemcpy` complete and change no memory unit outside the first `n` units of `dst`;
when the regions do not overlap the source region is unchanged; a count of `0` leaves
the whole memory unchanged. -/
theorem copy_frame (mem : Mem) (dst src : Nat) (n : Int) (k : Nat)
    (h0 : 0 ≤ n) (h1 : n < 2147483648)
    (hd : dst + n.toNat ≤ mem.length) (hs : src + n.toNat ≤ mem.length)
    (hdk : dst + k ≤ mem.length) (hsk : src + k ≤ mem.length) :
    (∃ mem1, memcpy mem dst src n = some (mem1, dst) ∧
      (∀ p, p < dst ∨ dst + n.toNat ≤ p → mem1[p]? = mem[p]?) ∧
      (dst + n.toNat ≤ src ∨ src + n.toNat ≤ dst →
        ∀ i, i < n.toNat → mem1[src + i]? = mem[src + i]?) ∧
      (n = 0 → mem1 = mem)) ∧
    (∃ mem1, wmemcpy mem dst src k = some (mem1, dst) ∧
      (∀ p, p < dst ∨ dst + k ≤ p → mem1[p]? = mem[p]?) ∧
      (dst + k ≤ src ∨ src + k ≤ dst → ∀ i, i < k → mem1[src + i]? = mem[src + i]?) ∧
      (k = 0 → mem1 = mem)) := by
  constructor
  · obtain ⟨mem1, hrun, _, hframe⟩ := memcpyLoop_frame n.toNat dst src mem hd hs
    refine ⟨mem1, by simp [memcpy, intBits_of_int_range h0 h1, hrun], hframe, ?_, ?_⟩
    · intro hsep i hi
      exact hframe (src + i) (by omega)
    · intro hz
      subst hz
      simp only [Int.toNat_zero, memcpyLoop, Option.some.injEq] at hrun
      exact hrun.symm
  · obtain ⟨mem1, hrun, _, hframe⟩ := memcpyLoop_frame k dst src mem hdk hsk
    refine ⟨mem1, by simp [wmemcpy, wmemcpyLoop_eq_memcpyLoop, hrun], hframe, ?_, ?_⟩
    · intro hsep i hi
      exact hframe (src + i) (by omega)
    · intro hz
      subst hz
      simp only [memcpyLoop, Option.some.injEq] at hrun
      exact hrun.symm

theorem copy_frame_witness :
    (∃ mem1, memcpy [1, 2, 3, 4, 5, 6] 2 1 3 = some (mem1, 2) ∧
      (∀ p, p < 2 ∨ 2 + (3 : Int).toNat ≤ p → mem1[p]? = [1, 2, 3, 4, 5, 6][p]?) ∧
      (2 + (3 : Int).toNat ≤ 1 ∨ 1 + (3 : Int).toNat ≤ 2 →
        ∀ i, i < (3 : Int).toNat → mem1[1 + i]? = [1, 2, 3, 4, 5, 6][1 + i]?) ∧
      ((3 : Int) = 0 → mem1 = [1, 2, 3, 4, 5, 6])) ∧
    (∃ mem1, wmemcpy [1, 2, 3, 4, 5, 6] 2 1 0 = some (mem1, 2) ∧
      (∀ p, p < 2 ∨ 2 + 0 ≤ p → mem1[p]? = [1, 2, 3, 4, 5, 6][p]?) ∧
      (2 + 0 ≤ 1 ∨ 1 + 0 ≤ 2 → ∀ i, i < 0 → mem1[1 + i]? = [1, 2, 3, 4, 5, 6][1 + i]?) ∧
      (0 = 0 → mem1 = [1, 2, 3, 4, 5, 6])) :=
  copy_frame [1, 2, 3, 4, 5, 6] 2 1 3 0 (by decide) (by decide) (by decide) (by decide)
    (by decide) (by decide)

/-! ### Reads of the length functions -/

/-- C15: for every sequence at `str` whose first zero unit is at index `k`, and every
buffer that ends `len` units after `str`, `strlen` and `wcslen` return `k` exactly when
the buffer holds the units at indices `0..k` (`k < len`) and make an invalid read
otherwise. So they read the units at indices `0..k` and none at `k + 1` or beyond: on a
buffer of `k + 1` units the out-of-bounds branch is not reached. -/
theorem length_reads_up_to_terminator (mem : Mem) (str k len : Nat)
    (hz : mem[str + k]? = some 0)
    (hnz : ∀ i, i < k → ∃ v, mem[str + i]? = some v ∧ v ≠ 0) :
    strlen (mem.take (str + len)) str = (if k < len then some k else none) ∧
    wcslen (mem.take (str + len)) str = (if k < len then some k else none) := by
  have h := strlenLoop_take k (mem.drop str) len 0 (by simpa using hz)
    (fun i hi => by simpa using hnz i hi)
  rw [Nat.zero_add] at h
  have hdrop : (mem.take (str + len)).drop str = (mem.drop str).take len := by
    rw [List.drop_take, Nat.add_sub_cancel_left]
  exact ⟨by rw [strlen, hdrop, h], by rw [wcslen, wcslenLoop_eq_strlenLoop, hdrop, h]⟩

theorem length_reads_up_to_terminator_witness :
    strlen ([104, 105, 0, 7, 7].take (0 + 3)) 0 = (if 2 < 3 then some 2 else none) ∧
    wcslen ([104, 105, 0, 7, 7].take (0 + 3)) 0 = (if 2 < 3 then some 2 else none) :=
  length_reads_up_to_terminator [104, 105, 0, 7, 7] 0 2 3 (by decide)
    (fun i hi => by interval_cases i <;> simp)

/-! ### Exact effect of `memset` -/

/-- C16: for every count `n >= 1` (an `int`) and `dst` inside the memory,
`memset(dst, c, n)` completes, returns `dst`, and writes only the unit at `dst`:
afterwards `dst[0]` holds `c` and every other unit, `dst[1..n-1]` included, holds the
value it had before the call. -/
theorem memset_changes_first_byte_only (mem : Mem) (dst c : Nat) (n : Int)
    (h0 : 1 ≤ n) (h1 : n < 2147483648) (hd : dst < mem.length) :
    ∃ mem1, memset mem dst c n = some (mem1, dst) ∧ mem1[dst]? = some c ∧
      ∀ p, p ≠ dst → mem1[p]? = mem[p]? := by
  obtain ⟨j, hj⟩ : ∃ j, n.toNat = j + 1 := ⟨n.toNat - 1, by omega⟩
  refine ⟨mem.set dst c, ?_, ?_, ?_⟩
  · simp [memset, intBits_of_int_range (by omega) h1, hj, memsetLoop_spec c j dst mem hd]
  · simp [List.getElem?_set, hd]
  · intro p hp
    have hne : dst ≠ p := fun h => hp h.symm
    simp [List.getElem?_set, hne]

theorem memset_changes_first_byte_only_witness :
    ∃ mem1, memset [0x11, 0x22, 0x33, 0x44, 0x55] 1 0xAB 3 = some (mem1, 1) ∧
      mem1[1]? = some 0xAB ∧
      ∀ p, p ≠ 1 → mem1[p]? = [0x11, 0x22, 0x33, 0x44, 0x55][p]? :=
  memset_changes_first_byte_only [0x11, 0x22, 0x33, 0x44, 0x55] 1 0xAB 3 (by decide)
    (by decide) (by decide)

/-! ### `STR_LEN` and the length functions -/

/-- C17: for every array at any place in memory that holds exactly `k` non-zero units
followed by the terminator, and every positive element size, `STR_LEN(arr)` equals
`strlen(arr) + 1`, and likewise `wcslen(arr) + 1`: `STR_LEN` counts the terminator. -/
theorem STR_LEN_eq_length_succ (before body after : List Nat) (elemSize : Nat)
    (hs : 0 < elemSize) (hnz : ∀ c, c ∈ body → c ≠ 0) :
    ∃ len, strlen (before ++ (body ++ [0]) ++ after) before.length = some len ∧
      wcslen (before ++ (body ++ [0]) ++ after) before.length = some len ∧
      STR_LEN elemSize (body ++ [0]) = len + 1 := by
  have hloop := strlenLoop_append after body 0 hnz
  rw [Nat.zero_add] at hloop
  have hdrop : (before ++ (body ++ [0]) ++ after).drop before.length = body ++ 0 :: after := by
    rw [List.append_assoc, List.drop_left]
    simp
  refine ⟨body.length, ?_, ?_, ?_⟩
  · rw [strlen, hdrop, hloop]
  · rw [wcslen, wcslenLoop_eq_strlenLoop, hdrop, hloop]
  · simp only [STR_LEN, sizeofArray, List.length_append, List.length_singleton]
    exact Nat.mul_div_cancel _ hs

theorem STR_LEN_eq_length_succ_witness :
    ∃ len, strlen ([9] ++ ([104, 105] ++ [0]) ++ [7]) [9].length = some len ∧
      wcslen ([9] ++ ([104, 105] ++ [0]) ++ [7]) [9].length = some len ∧
      STR_LEN 2 ([104, 105] ++ [0]) = len + 1 :=
  STR_LEN_eq_length_succ [9] [104, 105] [7] 2 (by decide) (by decide)

end Crt
